import Mathlib

/-!
Verification development for the disty CLI core (parsing, statistics, KDE).

Conventions of the shallow embedding:
* Byte regions are `List Nat` (each entry one byte, `10` is the newline byte).
* Parsed `f64` values are modelled by `FP`: an exact rational for finite
  values, plus distinguished infinities and a not-a-number value.  Finite
  arithmetic is exact (decimal-to-binary rounding is idealized away); the
  overflow-to-infinity behaviour of decimal parsing is kept, since it decides
  whether a parsed value is finite.
* The statistics and density-estimator stages work over real numbers, with
  `F` modelling an `f64` as either a finite real, an infinity, or NaN, and
  explicit IEEE-style propagation in the arithmetic operations (division by
  zero, NaN propagation), which is where the interesting edge cases live.
-/

/-- Model of an `f64` produced by parsing: an exact finite rational, one of
the two infinities, or NaN. -/
inductive FP where
  | fin (q : ℚ)
  | pinf
  | ninf
  | nan
deriving DecidableEq, Repr

/-- A value is finite when it is neither an infinity nor NaN. -/
def FP.isFinite : FP → Bool
  | .fin _ => true
  | _ => false

/-- Negation of a parsed value (used for a leading minus sign). -/
def FP.neg : FP → FP
  | .fin q => .fin (-q)
  | .pinf => .ninf
  | .ninf => .pinf
  | .nan => .nan

/-- Multiplication of a parsed value by the finite scale factor, following
IEEE rules: infinity times zero is NaN, otherwise signs multiply; NaN
propagates.  (Overflow of the finite product is not modelled.) -/
def FP.scaleMul : FP → ℚ → FP
  | .fin q, s => .fin (q * s)
  | .pinf, s => if 0 < s then .pinf else if s < 0 then .ninf else .nan
  | .ninf, s => if 0 < s then .ninf else if s < 0 then .pinf else .nan
  | .nan, _ => .nan

/-- Model of `f64::partial_cmp`: NaN is incomparable with everything
(including itself); infinities compare in the usual way. -/
def FP.pcmp : FP → FP → Option Ordering
  | .fin a, .fin b => some (compare a b)
  | .fin _, .pinf => some .lt
  | .fin _, .ninf => some .gt
  | .pinf, .fin _ => some .gt
  | .pinf, .pinf => some .eq
  | .pinf, .ninf => some .gt
  | .ninf, .fin _ => some .lt
  | .ninf, .ninf => some .eq
  | .ninf, .pinf => some .lt
  | .nan, _ => none
  | _, .nan => none

/-- Model of `u8::is_ascii_whitespace`: space, tab, newline, form feed,
carriage return. -/
def isAsciiWhitespaceByte (b : Nat) : Bool :=
  b = 32 || b = 9 || b = 10 || b = 12 || b = 13

/-- The index-based whitespace trimming of `parse_line`: advance the start
past leading ASCII whitespace, move the end before trailing ASCII
whitespace.  Expressed as dropping from both ends. -/
def trimBytes (l : List Nat) : List Nat :=
  ((l.dropWhile isAsciiWhitespaceByte).reverse.dropWhile isAsciiWhitespaceByte).reverse

/-- A UTF-8 continuation byte (`0x80`–`0xBF`). -/
def contByte (b : Nat) : Bool := 0x80 ≤ b && b ≤ 0xBF

/-- Model of `std::str::from_utf8` validity: the standard UTF-8 byte-level
acceptance table, rejecting overlong encodings and surrogate ranges. -/
def validUtf8 : List Nat → Bool
  | [] => true
  | b :: rest =>
    if b ≤ 0x7F then validUtf8 rest
    else if 0xC2 ≤ b && b ≤ 0xDF then
      match rest with
      | c :: r => contByte c && validUtf8 r
      | [] => false
    else if b = 0xE0 then
      match rest with
      | c1 :: c2 :: r => (0xA0 ≤ c1 && c1 ≤ 0xBF) && contByte c2 && validUtf8 r
      | _ => false
    else if (0xE1 ≤ b && b ≤ 0xEC) || b = 0xEE || b = 0xEF then
      match rest with
      | c1 :: c2 :: r => contByte c1 && contByte c2 && validUtf8 r
      | _ => false
    else if b = 0xED then
      match rest with
      | c1 :: c2 :: r => (0x80 ≤ c1 && c1 ≤ 0x9F) && contByte c2 && validUtf8 r
      | _ => false
    else if b = 0xF0 then
      match rest with
      | c1 :: c2 :: c3 :: r =>
        (0x90 ≤ c1 && c1 ≤ 0xBF) && contByte c2 && contByte c3 && validUtf8 r
      | _ => false
    else if 0xF1 ≤ b && b ≤ 0xF3 then
      match rest with
      | c1 :: c2 :: c3 :: r => contByte c1 && contByte c2 && contByte c3 && validUtf8 r
      | _ => false
    else if b = 0xF4 then
      match rest with
      | c1 :: c2 :: c3 :: r =>
        (0x80 ≤ c1 && c1 ≤ 0x8F) && contByte c2 && contByte c3 && validUtf8 r
      | _ => false
    else false

/-- Value of a single hexadecimal digit byte, if it is one. -/
def hexDigitVal (b : Nat) : Option Nat :=
  if 48 ≤ b ∧ b ≤ 57 then some (b - 48)
  else if 97 ≤ b ∧ b ≤ 102 then some (b - 87)
  else if 65 ≤ b ∧ b ≤ 70 then some (b - 55)
  else none

/-- Accumulate hexadecimal digits left to right; fails on a non-digit. -/
def hexDigitsVal : List Nat → Nat → Option Nat
  | [], acc => some acc
  | b :: r, acc =>
    match hexDigitVal b with
    | some d => hexDigitsVal r (acc * 16 + d)
    | none => none

/-- Model of `u64::from_str_radix(s, 16)`: an optional sign, then one or
more hex digits; the value must fit in 64 bits (otherwise overflow error);
a minus sign succeeds only on value zero. -/
def parseU64Hex (l : List Nat) : Option Nat :=
  match l with
  | 43 :: r =>
    if r = [] then none
    else match hexDigitsVal r 0 with
      | some v => if v < 2 ^ 64 then some v else none
      | none => none
  | 45 :: r =>
    if r = [] then none
    else match hexDigitsVal r 0 with
      | some v => if v = 0 then some 0 else none
      | none => none
  | r =>
    if r = [] then none
    else match hexDigitsVal r 0 with
      | some v => if v < 2 ^ 64 then some v else none
      | none => none

/-- Lowercase an ASCII letter byte (used for the case-insensitive parts of
float parsing: `inf`, `nan`, `e`). -/
def lowerByte (b : Nat) : Nat :=
  if 65 ≤ b ∧ b ≤ 90 then b + 32 else b

/-- All bytes are ASCII decimal digits. -/
def allDigitBytes (l : List Nat) : Bool :=
  l.all (fun b => 48 ≤ b && b ≤ 57)

/-- Numeric value of a (digit-only) byte list. -/
def digitsVal (l : List Nat) : Nat :=
  l.foldl (fun acc b => acc * 10 + (b - 48)) 0

/-- Mantissa of a decimal float literal: digits with at most one dot and at
least one digit overall. -/
def parseMantissa (l : List Nat) : Option ℚ :=
  match l.splitOn 46 with
  | [ip] => if ip ≠ [] ∧ allDigitBytes ip then some (digitsVal ip) else none
  | [ip, dp] =>
    if (ip ≠ [] ∨ dp ≠ []) ∧ allDigitBytes ip ∧ allDigitBytes dp then
      some ((digitsVal ip : ℚ) + (digitsVal dp : ℚ) / 10 ^ dp.length)
    else none
  | _ => none

/-- Exponent part of a decimal float literal: optional sign, one or more
digits. -/
def parseExpPart (l : List Nat) : Option ℤ :=
  match l with
  | 43 :: r => if r ≠ [] ∧ allDigitBytes r then some (digitsVal r) else none
  | 45 :: r => if r ≠ [] ∧ allDigitBytes r then some (-(digitsVal r : ℤ)) else none
  | r => if r ≠ [] ∧ allDigitBytes r then some (digitsVal r) else none

/-- Body of a float literal after the optional sign, already lowercased:
`inf`, `infinity`, `nan`, or a number `mantissa (e exponent)?`. -/
def parseDecBody (lw : List Nat) : Option FP :=
  if lw = [105, 110, 102] ∨ lw = [105, 110, 102, 105, 110, 105, 116, 121] then some .pinf
  else if lw = [110, 97, 110] then some .nan
  else
    match lw.splitOn 101 with
    | [m] => (parseMantissa m).map FP.fin
    | [m, e] =>
      match parseMantissa m, parseExpPart e with
      | some q, some ex => some (.fin (q * 10 ^ ex))
      | _, _ => none
    | _ => none

/-- The exact rounds-to-infinity threshold of `f64` under round to nearest,
ties to even: magnitudes at or above `2^1024 - 2^970` become infinite. -/
def f64OvfThreshold : ℚ := 2 ^ 1024 - 2 ^ 970

/-- Replace a finite value that overflows the `f64` range by the
corresponding infinity. -/
def overflowClip : FP → FP
  | .fin q =>
    if f64OvfThreshold ≤ q then .pinf
    else if q ≤ -f64OvfThreshold then .ninf
    else .fin q
  | v => v

/-- Model of `str::parse::<f64>()` on the raw bytes of the string: optional
sign, then (case-insensitively) `inf`/`infinity`/`nan` or a decimal number;
decimal values beyond the `f64` range become infinities.  Finite values are
kept exact as rationals (binary rounding and underflow are idealized away,
which never changes whether the result is finite). -/
def parseF64Bytes (l : List Nat) : Option FP :=
  let lw := l.map lowerByte
  match lw with
  | 43 :: r => (parseDecBody r).map overflowClip
  | 45 :: r => (parseDecBody r).map (fun v => overflowClip v.neg)
  | r => (parseDecBody r).map overflowClip

/-- `parse_line` from `src/parsing.rs`: trim ASCII whitespace from both
ends, drop empty lines, require valid UTF-8, then parse either a hex
literal marked `0x` (as a `u64` widened to float) or a decimal float;
the successful value is multiplied by the scale factor. -/
def parse_line (line : List Nat) (scale : ℚ) : Option FP :=
  let trimmed := trimBytes line
  if trimmed = [] then none
  else if validUtf8 trimmed then
    match trimmed with
    | 48 :: 120 :: rest => (parseU64Hex rest).map (fun v => FP.scaleMul (.fin (v : ℚ)) scale)
    | _ => (parseF64Bytes trimmed).map (fun v => FP.scaleMul v scale)
  else none

/-- Loop of `parse_chunk`: `cur` is the current line being accumulated
(the bytes since the previous newline); at a newline a non-empty line is
parsed and the accumulator reset; a non-empty final line is parsed at the
end of the chunk. -/
def parseChunkAux (scale : ℚ) : List Nat → List Nat → List FP
  | [], cur => if cur ≠ [] then (parse_line cur scale).toList else []
  | b :: rest, cur =>
    if b = 10 then
      (if cur ≠ [] then (parse_line cur scale).toList else []) ++ parseChunkAux scale rest []
    else parseChunkAux scale rest (cur ++ [b])

/-- `parse_chunk` from `src/parsing.rs`: parse newline-delimited numbers
from a byte slice, silently skipping invalid lines. -/
def parse_chunk (chunk : List Nat) (scale : ℚ) : List FP :=
  parseChunkAux scale chunk []

/-- The boundary-advancing loop of `read_file_mmap`:
`while pos < len && bytes[pos] != newline { pos += 1 }`. -/
def advanceToNewline (bytes : List Nat) (pos : ℕ) : ℕ :=
  if pos < bytes.length ∧ bytes.getD pos 0 ≠ 10 then advanceToNewline bytes (pos + 1)
  else pos
termination_by bytes.length - pos
decreasing_by omega

/-- The boundary-collecting loop of `read_file_mmap` for indices
`i, i+1, ..., numThreads - 1`: at each index the naive cut `i * chunkSize`
is advanced to the next newline and the position after it is recorded; a
naive cut at or beyond the end of the region stops the loop. -/
def boundariesFrom (bytes : List Nat) (chunkSize numThreads i : ℕ) : List ℕ :=
  if i < numThreads then
    if bytes.length ≤ i * chunkSize then []
    else
      (if advanceToNewline bytes (i * chunkSize) < bytes.length
       then [advanceToNewline bytes (i * chunkSize) + 1] else [])
      ++ boundariesFrom bytes chunkSize numThreads (i + 1)
  else []
termination_by numThreads - i
decreasing_by omega

/-- `read_file_mmap` from `src/parsing.rs`, with the memory map replaced by
its byte contents, the unit by its scale factor, and the rayon pool size by
`numThreads`: an empty region short-circuits; otherwise the region is cut
at line-aligned boundaries (first partition from offset 0, last ending at
the region length) and the per-partition parses are concatenated in
partition order. -/
def read_file_mmap (bytes : List Nat) (scale : ℚ) (numThreads : ℕ) : List FP :=
  if bytes = [] then []
  else
    let chunkSize := (bytes.length + numThreads - 1) / numThreads
    let boundaries := 0 :: boundariesFrom bytes chunkSize numThreads 1 ++ [bytes.length]
    let chunks := boundaries.zip boundaries.tail
    (chunks.map (fun se => parse_chunk ((bytes.take se.2).drop se.1) scale)).flatten

/-- Failure of the numeric token itself: the hex branch (a `0x` marker)
fails `u64` parsing, or any other token fails `f64` parsing. -/
def tokenParseFails (trimmed : List Nat) : Prop :=
  match trimmed with
  | 48 :: 120 :: rest => parseU64Hex rest = none
  | t => parseF64Bytes t = none

/-- Model of an `f64` inside the statistics and KDE stages: a finite real
number, an infinity, or NaN.  The model has a single (unsigned) zero; for
sign decisions zero counts as positive, matching the `+0.0` results that
actually occur in this code. -/
inductive F where
  | num (x : ℝ)
  | pinf
  | ninf
  | nan

/-- IEEE addition on the model. -/
noncomputable def F.add : F → F → F
  | .num a, .num b => .num (a + b)
  | .num _, .pinf => .pinf
  | .num _, .ninf => .ninf
  | .pinf, .num _ => .pinf
  | .ninf, .num _ => .ninf
  | .pinf, .pinf => .pinf
  | .ninf, .ninf => .ninf
  | .pinf, .ninf => .nan
  | .ninf, .pinf => .nan
  | .nan, _ => .nan
  | _, .nan => .nan

/-- IEEE subtraction on the model. -/
noncomputable def F.sub : F → F → F
  | .num a, .num b => .num (a - b)
  | .num _, .pinf => .ninf
  | .num _, .ninf => .pinf
  | .pinf, .num _ => .pinf
  | .ninf, .num _ => .ninf
  | .pinf, .ninf => .pinf
  | .ninf, .pinf => .ninf
  | .pinf, .pinf => .nan
  | .ninf, .ninf => .nan
  | .nan, _ => .nan
  | _, .nan => .nan

/-- IEEE multiplication on the model: infinity times zero is NaN. -/
noncomputable def F.mul : F → F → F
  | .num a, .num b => .num (a * b)
  | .num a, .pinf => if 0 < a then .pinf else if a < 0 then .ninf else .nan
  | .num a, .ninf => if 0 < a then .ninf else if a < 0 then .pinf else .nan
  | .pinf, .num b => if 0 < b then .pinf else if b < 0 then .ninf else .nan
  | .ninf, .num b => if 0 < b then .ninf else if b < 0 then .pinf else .nan
  | .pinf, .pinf => .pinf
  | .pinf, .ninf => .ninf
  | .ninf, .pinf => .ninf
  | .ninf, .ninf => .pinf
  | .nan, _ => .nan
  | _, .nan => .nan

/-- IEEE division on the model: `0/0` and `inf/inf` are NaN, a nonzero
finite value divided by (the unsigned) zero is a signed infinity. -/
noncomputable def F.div : F → F → F
  | .num a, .num b =>
    if b = 0 then (if a = 0 then .nan else if 0 < a then .pinf else .ninf)
    else .num (a / b)
  | .num _, .pinf => .num 0
  | .num _, .ninf => .num 0
  | .pinf, .num b => if 0 ≤ b then .pinf else .ninf
  | .ninf, .num b => if 0 ≤ b then .ninf else .pinf
  | .pinf, .pinf => .nan
  | .pinf, .ninf => .nan
  | .ninf, .pinf => .nan
  | .ninf, .ninf => .nan
  | .nan, _ => .nan
  | _, .nan => .nan

/-- `f64::sqrt` on the model: NaN on negative inputs. -/
noncomputable def F.sqrt : F → F
  | .num x => if x < 0 then .nan else .num (Real.sqrt x)
  | .pinf => .pinf
  | .ninf => .nan
  | .nan => .nan

/-- `f64::exp` on the model. -/
noncomputable def F.exp : F → F
  | .num x => .num (Real.exp x)
  | .pinf => .pinf
  | .ninf => .num 0
  | .nan => .nan

/-- `f64::powf` on the model, for the non-integer exponents used here:
a positive base uses the real power, `0^y` is `+inf`, `1` or `0` as the
exponent is negative, zero, or positive, and a negative base is NaN. -/
noncomputable def F.powf : F → ℝ → F
  | .num x, y =>
    if x = 0 then (if y < 0 then .pinf else if y = 0 then .num 1 else .num 0)
    else if 0 < x then .num (x ^ y)
    else .nan
  | .pinf, y => if 0 < y then .pinf else if y < 0 then .num 0 else .num 1
  | .ninf, _ => .nan
  | .nan, _ => .nan

/-- Model of `Iterator::sum::<f64>()`: a left fold of addition from `0.0`. -/
noncomputable def F.listSum (l : List F) : F := l.foldl F.add (F.num 0)

/-- The `Stats` record of `src/stats.rs`: the sorted data plus the
aggregates computed at construction. -/
structure Stats where
  data : List ℝ
  n : ℕ
  sum : ℝ
  mean : F
  geo_mean : F
  variance : F
  std_dev : F

open Classical in
/-- `Stats::new` from `src/stats.rs`: sort the data with the total order
recovered from `partial_cmp`, then aggregate: `mean = sum / n`, the
geometric mean is `exp(sum(ln x) / n)` when every sample is strictly
positive and NaN otherwise, population `variance`, and its square root.
Finite sums over the (finite, real) samples are exact; the divisions use
the IEEE model so that `n = 0` produces NaN exactly as `0.0/0.0` does. -/
noncomputable def Stats.new (l : List ℝ) : Stats :=
  let data := List.insertionSort (· ≤ ·) l
  let n := data.length
  let sum := data.sum
  let mean := F.div (F.num sum) (F.num (n : ℝ))
  let geo_mean :=
    if ∀ x ∈ data, 0 < x then
      F.exp (F.div (F.num ((data.map Real.log).sum)) (F.num (n : ℝ)))
    else F.nan
  let variance :=
    F.div (F.listSum (data.map (fun x =>
      F.mul (F.sub (F.num x) mean) (F.sub (F.num x) mean)))) (F.num (n : ℝ))
  let std_dev := F.sqrt variance
  ⟨data, n, sum, mean, geo_mean, variance, std_dev⟩

/-- The rank-interpolation expression of `Stats::quantile` at rank `r`:
`lower = floor(r)`, `upper = ceil(r)`, `fraction = r - lower`, result
`data[lower] * (1 - fraction) + data[upper] * fraction`. -/
noncomputable def interpAt (d : List ℝ) (r : ℝ) : ℝ :=
  d.getD ⌊r⌋.toNat 0 * (1 - (r - (⌊r⌋.toNat : ℝ))) +
    d.getD ⌈r⌉.toNat 0 * (r - (⌊r⌋.toNat : ℝ))

/-- `Stats::quantile` from `src/stats.rs`: NaN on empty data, the first
element for `q <= 0`, the last element for `q >= 1`, and linear
interpolation between the closest ranks at `rank = q * (n - 1)` otherwise. -/
noncomputable def Stats.quantile (s : Stats) (q : ℝ) : F :=
  if s.data = [] then F.nan
  else if q ≤ 0 then F.num (s.data.getD 0 0)
  else if 1 ≤ q then F.num (s.data.getD (s.n - 1) 0)
  else F.num (interpAt s.data (q * ((s.n - 1 : ℕ) : ℝ)))

/-- `f64` strict comparison against the model: any comparison involving
NaN is false. -/
def F.lt : F → F → Prop
  | .num a, .num b => a < b
  | .num _, .pinf => True
  | .ninf, .num _ => True
  | .ninf, .pinf => True
  | _, _ => False

/-- `f64` non-strict comparison against the model: any comparison
involving NaN is false. -/
def F.le : F → F → Prop
  | .num a, .num b => a ≤ b
  | .num _, .pinf => True
  | .ninf, .num _ => True
  | .ninf, .pinf => True
  | .pinf, .pinf => True
  | .ninf, .ninf => True
  | _, _ => False

open Classical in
/-- Model of `slice::partition_point`: for a predicate that partitions the
slice (all true entries before all false ones, which holds for the
monotone predicates used on the sorted data), the binary search returns
the index of the first element of the second partition, i.e. the number of
elements satisfying the predicate. -/
noncomputable def partitionPoint (p : ℝ → Prop) (l : List ℝ) : ℕ :=
  l.countP (fun x => decide (p x))

/-- The KDE record of `src/kde.rs`: borrowed sorted data plus the Silverman
bandwidth chosen at construction. -/
structure KDE where
  data : List ℝ
  bandwidth : F

/-- `KDE::new` from `src/kde.rs`: mean, population variance and standard
deviation of the (already sorted) data, then Silverman's rule
`bandwidth = 1.06 * std_dev * n^(-1/5)`.  Divisions use the IEEE model, so
an empty slice degenerates through `0.0/0.0` exactly as in `f64`. -/
noncomputable def KDE.new (data : List ℝ) : KDE :=
  let n : ℝ := (data.length : ℝ)
  let mean := F.div (F.num data.sum) (F.num n)
  let variance := F.div (F.listSum (data.map (fun x =>
    F.mul (F.sub (F.num x) mean) (F.sub (F.num x) mean)))) (F.num n)
  let std_dev := F.sqrt variance
  let bandwidth := F.mul (F.mul (F.num 1.06) std_dev) (F.powf (F.num n) (-0.2))
  ⟨data, bandwidth⟩

/-- `gaussian_kernel` from `src/kde.rs`, with the same stored constant for
`1/sqrt(2*pi)`: `K(u) = INV_SQRT_2PI * exp(-0.5 * u * u)`. -/
noncomputable def gaussian_kernel (u : F) : F :=
  F.mul (F.num 0.3989422804014327) (F.exp (F.mul (F.mul (F.num (-0.5)) u) u))

/-- `KDE::pdf` from `src/kde.rs`: restrict the kernel sum to samples within
four bandwidths of the query (two partition-point searches on the sorted
data), then divide by `n * h`. -/
noncomputable def KDE.pdf (k : KDE) (x : ℝ) : F :=
  let n : ℝ := (k.data.length : ℝ)
  let h := k.bandwidth
  let cutoff := F.mul (F.num 4) h
  let lower := F.sub (F.num x) cutoff
  let upper := F.add (F.num x) cutoff
  let start := partitionPoint (fun xi => F.lt (F.num xi) lower) k.data
  let stop := partitionPoint (fun xi => F.le (F.num xi) upper) k.data
  let s := F.listSum (((k.data.take stop).drop start).map
    (fun xi => gaussian_kernel (F.div (F.num (x - xi)) h)))
  F.div s (F.mul (F.num n) h)

/-- `KDE::bounds` from `src/kde.rs`: data range with 10% padding, lower
bound clamped to zero when the minimum is non-negative; the defaults `0.0`
and `1.0` stand in for the first and last element of an empty slice. -/
noncomputable def KDE.bounds (k : KDE) : ℝ × ℝ :=
  let mn := k.data.head?.getD 0
  let mx := k.data.getLast?.getD 1
  let padding := (mx - mn) * 0.1
  let lower := if 0 ≤ mn then max (mn - padding) 0 else mn - padding
  (lower, mx + padding)

/-- C1 (counterexample): the line consisting of the bytes of the token
`inf` (followed by a newline) parses successfully to positive infinity,
so a non-finite value does appear in the parsed sample set. -/
theorem c1_nonfinite_not_dropped_cex :
    parse_chunk [105, 110, 102, 10] 1 = [FP.pinf] ∧ FP.pinf.isFinite = false := by
  decide

/-- C1 (amended): a line is dropped exactly when it is empty after
trimming, fails UTF-8 decoding, or fails decimal/hex parsing; a token that
parses successfully to a non-finite value (such as `inf` or `nan`) is NOT
dropped but contributes that value to the output. -/
theorem c1_drop_characterization (line : List Nat) (scale : ℚ) :
    (parse_line line scale = none ↔
      trimBytes line = [] ∨ validUtf8 (trimBytes line) = false ∨
        tokenParseFails (trimBytes line))
    ∧ parse_line [105, 110, 102] 1 = some FP.pinf
    ∧ parse_line [110, 97, 110] 1 = some FP.nan := by
  refine ⟨?_, by decide, by decide⟩
  unfold parse_line tokenParseFails
  by_cases h1 : trimBytes line = []
  · simp [h1]
  · by_cases h2 : validUtf8 (trimBytes line)
    · simp only [h1, h2, if_false, if_true, ite_false, ite_true]
      split
      · rename_i trimmed rest heq
        cases hp : parseU64Hex rest <;> simp [hp]
      · simp
    · simp [h1, h2]

/-- C1 (witness): instantiation at a line made of the single byte `0xFF`
(invalid UTF-8), which is dropped, together with the concrete non-finite
inclusions. -/
theorem c1_drop_characterization_witness :
    parse_line [255] 1 = none ∧ parse_line [105, 110, 102] 1 = some FP.pinf
      ∧ parse_line [110, 97, 110] 1 = some FP.nan :=
  ⟨(c1_drop_characterization [255] 1).1.mpr (Or.inr (Or.inl (by decide))),
    (c1_drop_characterization [255] 1).2.1,
    (c1_drop_characterization [255] 1).2.2⟩

/-- C9: under the no-NaN precondition, every pair of values drawn from the
input vector is comparable by `partial_cmp`, so the `.unwrap()` in the sort
comparator of `Stats::new` can never hit its panic branch. -/
theorem c9_pcmp_total_without_nan (l : List FP) (h : ∀ x ∈ l, x ≠ FP.nan) :
    ∀ a ∈ l, ∀ b ∈ l, (FP.pcmp a b).isSome = true := by
  intro a ha b hb
  have ha' := h a ha
  have hb' := h b hb
  cases a <;> cases b <;> simp_all [FP.pcmp]

/-- C9 (witness): the comparator is total on the concrete NaN-free vector
`[1.0, +inf]`. -/
theorem c9_pcmp_total_without_nan_witness :
    (FP.pcmp (FP.fin 1) FP.pinf).isSome = true :=
  c9_pcmp_total_without_nan [FP.fin 1, FP.pinf] (by decide) (FP.fin 1) (by decide)
    FP.pinf (by decide)

/-- Unfolding equation for the chunk loop on a cons cell. -/
theorem parseChunkAux_cons (scale : ℚ) (b : Nat) (rest cur : List Nat) :
    parseChunkAux scale (b :: rest) cur =
      if b = 10 then
        (if cur ≠ [] then (parse_line cur scale).toList else []) ++
          parseChunkAux scale rest []
      else parseChunkAux scale rest (cur ++ [b]) := rfl

/-- Parsing a chunk that ends exactly after a newline, followed by more
bytes, is the same as parsing the two pieces separately: the line
accumulator is empty at the seam. -/
theorem parseChunkAux_append (scale : ℚ) (l2 : List Nat) :
    ∀ (l1 cur : List Nat), l1.getLast? = some 10 →
      parseChunkAux scale (l1 ++ l2) cur =
        parseChunkAux scale l1 cur ++ parseChunkAux scale l2 [] := by
  intro l1
  induction l1 with
  | nil => intro cur h; simp at h
  | cons b l1' ih =>
    intro cur h
    cases l1' with
    | nil =>
      rw [List.getLast?_singleton] at h
      injection h with h
      subst h
      simp only [List.cons_append, List.nil_append]
      rw [parseChunkAux_cons, if_pos rfl]
      conv_rhs => rw [parseChunkAux_cons, if_pos rfl]
      simp [parseChunkAux]
    | cons c l1'' =>
      have h' : (c :: l1'').getLast? = some 10 := by rwa [List.getLast?_cons_cons] at h
      simp only [List.cons_append] at ih
      by_cases hb : b = 10
      · subst hb
        simp only [List.cons_append]
        rw [parseChunkAux_cons, if_pos rfl]
        rw [ih [] h']
        conv_rhs => rw [parseChunkAux_cons, if_pos rfl]
        exact (List.append_assoc _ _ _).symm
      · simp only [List.cons_append]
        rw [parseChunkAux_cons, if_neg hb]
        rw [ih (cur ++ [b]) h']
        conv_rhs => rw [parseChunkAux_cons, if_neg hb]

/-- Splitting a slice of the byte region at a cut that is either the end of
the region or a position just after a newline does not change the parse
result: partitions compose. -/
theorem parse_chunk_slice_split (bytes : List Nat) (scale : ℚ) (a b e : ℕ)
    (hab : a ≤ b) (hbe : b ≤ e) (he : e ≤ bytes.length)
    (hb : b = bytes.length ∨ (0 < b ∧ bytes.getD (b - 1) 0 = 10)) :
    parse_chunk ((bytes.take e).drop a) scale =
      parse_chunk ((bytes.take b).drop a) scale ++
        parse_chunk ((bytes.take e).drop b) scale := by
  rcases hb with hb | ⟨hb0, hb10⟩
  · have he' : e = b := by omega
    subst he'
    have h2 : (bytes.take e).drop e = [] := by simp [List.drop_take]
    rw [h2]
    simp [parse_chunk, parseChunkAux]
  · by_cases hab' : a = b
    · subst hab'
      have h1 : (bytes.take a).drop a = [] := by simp [List.drop_take]
      rw [h1]
      simp [parse_chunk, parseChunkAux]
    · have hlt : a < b := lt_of_le_of_ne hab hab'
      have e1 : (bytes.take e).drop a = (bytes.take b).drop a ++ (bytes.take e).drop b := by
        rw [List.drop_take, List.drop_take, List.drop_take]
        rw [show e - a = (b - a) + (e - b) by omega, List.take_add]
        congr 2
        rw [List.drop_drop]
        congr 1
        omega
      rw [e1]
      have hlen : ((bytes.take b).drop a).length = b - a := by
        simp only [List.length_drop, List.length_take]
        omega
      have hlast : ((bytes.take b).drop a).getLast? = some 10 := by
        rw [List.getLast?_eq_getElem?, hlen, List.getElem?_drop, List.getElem?_take,
          if_pos (by omega : a + (b - a - 1) < b), show a + (b - a - 1) = b - 1 by omega]
        rw [List.getD_eq_getElem?_getD] at hb10
        cases hx : bytes[b - 1]? with
        | none => rw [hx] at hb10; simp at hb10
        | some v => rw [hx] at hb10; simp at hb10; rw [hb10]
      exact parseChunkAux_append scale _ _ [] hlast

/-- The boundary-advancing loop stops at or after its start, stops only at
a newline byte or the end of the region, and never passes the end. -/
theorem advanceToNewline_props (bytes : List Nat) :
    ∀ n pos, bytes.length - pos ≤ n →
      pos ≤ advanceToNewline bytes pos ∧
        (advanceToNewline bytes pos < bytes.length →
          bytes.getD (advanceToNewline bytes pos) 0 = 10) ∧
        (pos ≤ bytes.length → advanceToNewline bytes pos ≤ bytes.length) := by
  intro n
  induction n with
  | zero =>
    intro pos hp
    rw [advanceToNewline, if_neg (fun hc => by omega)]
    exact ⟨le_rfl, fun hlt => by omega, fun h => h⟩
  | succ n ih =>
    intro pos hp
    by_cases hc : pos < bytes.length ∧ bytes.getD pos 0 ≠ 10
    · rw [advanceToNewline, if_pos hc]
      obtain ⟨h1, h2, h3⟩ := ih (pos + 1) (by omega)
      exact ⟨by omega, h2, fun _ => h3 (by omega)⟩
    · rw [advanceToNewline, if_neg hc]
      refine ⟨le_rfl, fun hlt => ?_, fun h => h⟩
      by_contra hne
      exact hc ⟨hlt, hne⟩

/-- The advancing loop never moves backward. -/
theorem advanceToNewline_ge (bytes : List Nat) (pos : ℕ) :
    pos ≤ advanceToNewline bytes pos :=
  (advanceToNewline_props bytes _ pos le_rfl).1

/-- If the advancing loop stops inside the region, it stops on a newline. -/
theorem advanceToNewline_newline (bytes : List Nat) (pos : ℕ)
    (h : advanceToNewline bytes pos < bytes.length) :
    bytes.getD (advanceToNewline bytes pos) 0 = 10 :=
  (advanceToNewline_props bytes _ pos le_rfl).2.1 h

/-- The advancing loop is monotone in its starting position. -/
theorem advanceToNewline_mono_aux (bytes : List Nat) :
    ∀ n pos pos', bytes.length - pos ≤ n → pos ≤ pos' →
      advanceToNewline bytes pos ≤ advanceToNewline bytes pos' := by
  intro n
  induction n with
  | zero =>
    intro pos pos' hn hle
    conv_lhs => rw [advanceToNewline]
    rw [if_neg (fun hc => by omega)]
    exact le_trans hle (advanceToNewline_ge bytes pos')
  | succ n ih =>
    intro pos pos' hn hle
    by_cases hc : pos < bytes.length ∧ bytes.getD pos 0 ≠ 10
    · rcases eq_or_lt_of_le hle with rfl | hlt
      · exact le_rfl
      · conv_lhs => rw [advanceToNewline]
        rw [if_pos hc]
        exact ih (pos + 1) pos' (by omega) (by omega)
    · conv_lhs => rw [advanceToNewline]
      rw [if_neg hc]
      exact le_trans hle (advanceToNewline_ge bytes pos')

/-- The advancing loop is monotone in its starting position. -/
theorem advanceToNewline_mono (bytes : List Nat) (pos pos' : ℕ) (h : pos ≤ pos') :
    advanceToNewline bytes pos ≤ advanceToNewline bytes pos' :=
  advanceToNewline_mono_aux bytes _ pos pos' le_rfl h

/-- Every boundary produced by the collecting loop is the successor of an
advanced naive cut for some index at or beyond the current one, and that
advanced cut lies strictly inside the region. -/
theorem boundariesFrom_mem (bytes : List Nat) (cs t : ℕ) :
    ∀ n i x, t - i ≤ n → x ∈ boundariesFrom bytes cs t i →
      ∃ k, i ≤ k ∧ x = advanceToNewline bytes (k * cs) + 1 ∧
        advanceToNewline bytes (k * cs) < bytes.length := by
  intro n
  induction n with
  | zero =>
    intro i x hn hx
    rw [boundariesFrom, if_neg (by omega)] at hx
    simp at hx
  | succ n ih =>
    intro i x hn hx
    rw [boundariesFrom] at hx
    by_cases hit : i < t
    · rw [if_pos hit] at hx
      by_cases hlen : bytes.length ≤ i * cs
      · rw [if_pos hlen] at hx; simp at hx
      · rw [if_neg hlen] at hx
        by_cases hadv : advanceToNewline bytes (i * cs) < bytes.length
        · rw [if_pos hadv] at hx
          rcases List.mem_append.mp hx with h | h
          · rw [List.mem_singleton] at h
            exact ⟨i, le_rfl, h, hadv⟩
          · obtain ⟨k, hk, he, hl⟩ := ih (i + 1) x (by omega) h
            exact ⟨k, by omega, he, hl⟩
        · rw [if_neg hadv, List.nil_append] at hx
          obtain ⟨k, hk, he, hl⟩ := ih (i + 1) x (by omega) hx
          exact ⟨k, by omega, he, hl⟩
    · rw [if_neg hit] at hx; simp at hx

/-- The boundaries produced by the collecting loop are sorted. -/
theorem boundariesFrom_sorted (bytes : List Nat) (cs t : ℕ) :
    ∀ n i, t - i ≤ n → List.Sorted (· ≤ ·) (boundariesFrom bytes cs t i) := by
  intro n
  induction n with
  | zero =>
    intro i hn
    rw [boundariesFrom, if_neg (by omega)]
    exact List.sorted_nil
  | succ n ih =>
    intro i hn
    rw [boundariesFrom]
    by_cases hit : i < t
    · rw [if_pos hit]
      by_cases hlen : bytes.length ≤ i * cs
      · rw [if_pos hlen]; exact List.sorted_nil
      · rw [if_neg hlen]
        by_cases hadv : advanceToNewline bytes (i * cs) < bytes.length
        · rw [if_pos hadv, List.singleton_append, List.sorted_cons]
          refine ⟨?_, ih (i + 1) (by omega)⟩
          intro y hy
          obtain ⟨k, hk, rfl, _⟩ :=
            boundariesFrom_mem bytes cs t (t - (i + 1)) (i + 1) y le_rfl hy
          have hm : advanceToNewline bytes (i * cs) ≤ advanceToNewline bytes (k * cs) :=
            advanceToNewline_mono bytes _ _ (Nat.mul_le_mul_right cs (by omega))
          omega
        · rw [if_neg hadv, List.nil_append]
          exact ih (i + 1) (by omega)
    · rw [if_neg hit]; exact List.sorted_nil

/-- Every boundary produced by the collecting loop is a positive position
at most the region length whose previous byte is a newline. -/
theorem boundariesFrom_cut (bytes : List Nat) (cs t i x : ℕ)
    (hx : x ∈ boundariesFrom bytes cs t i) :
    0 < x ∧ x ≤ bytes.length ∧ bytes.getD (x - 1) 0 = 10 := by
  obtain ⟨k, hk, rfl, hl⟩ := boundariesFrom_mem bytes cs t (t - i) i x le_rfl hx
  refine ⟨by omega, by omega, ?_⟩
  simpa using advanceToNewline_newline bytes (k * cs) hl

/-- Concatenating the parses of the windows of a sorted list of line-aligned
cut positions yields the parse of the whole spanned slice. -/
theorem chunks_concat (bytes : List Nat) (scale : ℚ) :
    ∀ (bs : List ℕ) (c : ℕ), c ≤ bytes.length →
      (∀ x ∈ bs, c ≤ x ∧ x ≤ bytes.length ∧
        (x = bytes.length ∨ (0 < x ∧ bytes.getD (x - 1) 0 = 10))) →
      List.Sorted (· ≤ ·) bs →
      (((c :: bs).zip bs).map
          (fun se => parse_chunk ((bytes.take se.2).drop se.1) scale)).flatten
        = parse_chunk ((bytes.take (bs.getLastD c)).drop c) scale := by
  intro bs
  induction bs with
  | nil =>
    intro c hc _ _
    have h1 : (bytes.take c).drop c = [] := by simp [List.drop_take]
    simp [h1, parse_chunk, parseChunkAux]
  | cons b bs' ih =>
    intro c hc hall hsorted
    rw [List.zip_cons_cons, List.map_cons, List.flatten_cons]
    have hb := hall b (List.mem_cons_self _ _)
    have hsc := List.sorted_cons.mp hsorted
    have hrest : ∀ x ∈ bs', b ≤ x ∧ x ≤ bytes.length ∧
        (x = bytes.length ∨ (0 < x ∧ bytes.getD (x - 1) 0 = 10)) := by
      intro x hx
      exact ⟨hsc.1 x hx, (hall x (List.mem_cons_of_mem _ hx)).2⟩
    rw [ih b hb.2.1 hrest hsc.2, List.getLastD_cons]
    have hlastmem : bs'.getLastD b ∈ b :: bs' := List.getLastD_mem_cons bs' b
    have hble : b ≤ bs'.getLastD b := by
      rcases List.mem_cons.mp hlastmem with h | h
      · omega
      · exact hsc.1 _ h
    have hlast_le : bs'.getLastD b ≤ bytes.length := by
      rcases List.mem_cons.mp hlastmem with h | h
      · rw [h]; exact hb.2.1
      · exact (hall _ (List.mem_cons_of_mem _ h)).2.1
    exact (parse_chunk_slice_split bytes scale c b _ hb.1 hble hlast_le hb.2.2).symm

/-- The partitioned parse of `read_file_mmap` equals, as a list, the parse
of the whole region in one chunk. -/
theorem read_file_mmap_eq_parse_chunk (bytes : List Nat) (scale : ℚ) (t : ℕ)
    (ht : 1 ≤ t) :
    read_file_mmap bytes scale t = parse_chunk bytes scale := by
  unfold read_file_mmap
  by_cases hbe : bytes = []
  · rw [if_pos hbe]
    subst hbe
    simp [parse_chunk, parseChunkAux]
  · rw [if_neg hbe]
    have hall : ∀ x ∈ boundariesFrom bytes ((bytes.length + t - 1) / t) t 1 ++ [bytes.length],
        0 ≤ x ∧ x ≤ bytes.length ∧
          (x = bytes.length ∨ (0 < x ∧ bytes.getD (x - 1) 0 = 10)) := by
      intro x hx
      rcases List.mem_append.mp hx with h | h
      · obtain ⟨h1, h2, h3⟩ := boundariesFrom_cut bytes _ t 1 x h
        exact ⟨Nat.zero_le _, h2, Or.inr ⟨h1, h3⟩⟩
      · rw [List.mem_singleton] at h
        subst h
        exact ⟨Nat.zero_le _, le_rfl, Or.inl rfl⟩
    have hsorted : List.Sorted (· ≤ ·)
        (boundariesFrom bytes ((bytes.length + t - 1) / t) t 1 ++ [bytes.length]) := by
      rw [List.Sorted]
      rw [List.pairwise_append]
      refine ⟨boundariesFrom_sorted bytes _ t t 1 (by omega), List.sorted_singleton _, ?_⟩
      intro a ha b hb
      rw [List.mem_singleton] at hb
      subst hb
      exact (boundariesFrom_cut bytes _ t 1 a ha).2.1
    have h := chunks_concat bytes scale
      (boundariesFrom bytes ((bytes.length + t - 1) / t) t 1 ++ [bytes.length]) 0
      (Nat.zero_le _) hall hsorted
    have hlast : (boundariesFrom bytes ((bytes.length + t - 1) / t) t 1
        ++ [bytes.length]).getLastD 0 = bytes.length := by
      rw [List.getLastD_eq_getLast?, List.getLast?_concat]
      rfl
    rw [hlast, List.drop_zero, List.take_length] at h
    exact h

/-- C2: splitting the byte region at the line-aligned partition boundaries
computed by `read_file_mmap` and concatenating the per-partition parses
yields the same multiset of values as parsing the whole region with a
single `parse_chunk`. -/
theorem c2_partition_equals_whole (bytes : List Nat) (scale : ℚ) (numThreads : ℕ)
    (ht : 1 ≤ numThreads) :
    (↑(read_file_mmap bytes scale numThreads) : Multiset FP) =
      ↑(parse_chunk bytes scale) := by
  rw [read_file_mmap_eq_parse_chunk bytes scale numThreads ht]

/-- C2 (witness): the region `10\n20\n30` split across two workers parses
to the same multiset as the whole-region parse. -/
theorem c2_partition_equals_whole_witness :
    (↑(read_file_mmap [49, 48, 10, 50, 48, 10, 51, 48] 1 2) : Multiset FP) =
      ↑(parse_chunk [49, 48, 10, 50, 48, 10, 51, 48] 1) :=
  c2_partition_equals_whole [49, 48, 10, 50, 48, 10, 51, 48] 1 2 (by decide)

/-- Finite-by-finite division with a nonzero divisor is real division. -/
theorem F.div_num_num (a b : ℝ) (hb : b ≠ 0) :
    F.div (F.num a) (F.num b) = F.num (a / b) := by
  simp only [F.div]
  rw [if_neg hb]

/-- Zero divided by zero is NaN in the model. -/
theorem F.div_zero_zero : F.div (F.num 0) (F.num 0) = F.nan := by
  simp [F.div]

/-- In a sorted list, values are monotone in the (defaulted) index, as long
as the larger index is in range. -/
theorem sorted_getD_mono (d : List ℝ) (hs : List.Sorted (· ≤ ·) d) {i j : ℕ}
    (hij : i ≤ j) (hj : j < d.length) : d.getD i 0 ≤ d.getD j 0 := by
  rcases eq_or_lt_of_le hij with rfl | hlt
  · exact le_rfl
  · have hi : i < d.length := lt_trans hlt hj
    rw [List.getD_eq_getElem?_getD, List.getD_eq_getElem?_getD,
      List.getElem?_eq_getElem hi, List.getElem?_eq_getElem hj,
      Option.getD_some, Option.getD_some]
    exact List.pairwise_iff_getElem.mp hs i j hi hj hlt

/-- An in-range defaulted index yields a list element. -/
theorem getD_mem (d : List ℝ) {i : ℕ} (hi : i < d.length) : d.getD i 0 ∈ d := by
  rw [List.getD_eq_getElem?_getD, List.getElem?_eq_getElem hi, Option.getD_some]
  exact List.getElem_mem hi

/-- Every list element is an in-range defaulted index. -/
theorem mem_getD (d : List ℝ) {y : ℝ} (hy : y ∈ d) :
    ∃ i, i < d.length ∧ d.getD i 0 = y := by
  obtain ⟨i, hi, rfl⟩ := List.mem_iff_getElem.mp hy
  exact ⟨i, hi, by rw [List.getD_eq_getElem?_getD, List.getElem?_eq_getElem hi,
    Option.getD_some]⟩

/-- Truncated floor stays below a natural bound on `r`. -/
theorem floor_toNat_le (r : ℝ) (m : ℕ) (hr : r ≤ (m : ℝ)) : ⌊r⌋.toNat ≤ m := by
  refine Int.toNat_le.mpr ?_
  have h := Int.floor_le_floor hr
  rwa [Int.floor_natCast] at h

/-- Truncated ceiling stays below a natural bound on `r`. -/
theorem ceil_toNat_le (r : ℝ) (m : ℕ) (hr : r ≤ (m : ℝ)) : ⌈r⌉.toNat ≤ m := by
  refine Int.toNat_le.mpr ?_
  exact Int.ceil_le.mpr (by exact_mod_cast hr)

/-- For nonnegative `r` the truncated floor casts back to the real floor. -/
theorem floor_toNat_cast (r : ℝ) (h0 : 0 ≤ r) : ((⌊r⌋.toNat : ℕ) : ℝ) = ((⌊r⌋ : ℤ) : ℝ) := by
  exact_mod_cast congrArg Int.cast (Int.toNat_of_nonneg (Int.floor_nonneg.mpr h0))

/-- The interpolated value is at least the floor-indexed element. -/
theorem interpAt_ge_floor (d : List ℝ) (hs : List.Sorted (· ≤ ·) d) (r : ℝ)
    (h0r : 0 ≤ r) (hr : r ≤ ((d.length - 1 : ℕ) : ℝ)) (hd : d ≠ []) :
    d.getD ⌊r⌋.toNat 0 ≤ interpAt d r := by
  have hpos : 0 < d.length := List.length_pos.mpr hd
  have hf0 : 0 ≤ r - (⌊r⌋.toNat : ℝ) := by
    rw [floor_toNat_cast r h0r]
    linarith [Int.floor_le r]
  have hup : ⌈r⌉.toNat < d.length :=
    lt_of_le_of_lt (ceil_toNat_le r (d.length - 1) hr) (by omega)
  have hAB : d.getD ⌊r⌋.toNat 0 ≤ d.getD ⌈r⌉.toNat 0 :=
    sorted_getD_mono d hs (Int.toNat_le_toNat (Int.floor_le_ceil r)) hup
  unfold interpAt
  nlinarith [mul_nonneg hf0 (sub_nonneg.mpr hAB)]

/-- The interpolated value is at most the ceiling-indexed element. -/
theorem interpAt_le_ceil (d : List ℝ) (hs : List.Sorted (· ≤ ·) d) (r : ℝ)
    (h0r : 0 ≤ r) (hr : r ≤ ((d.length - 1 : ℕ) : ℝ)) (hd : d ≠ []) :
    interpAt d r ≤ d.getD ⌈r⌉.toNat 0 := by
  have hpos : 0 < d.length := List.length_pos.mpr hd
  have hf1 : r - (⌊r⌋.toNat : ℝ) ≤ 1 := by
    rw [floor_toNat_cast r h0r]
    linarith [Int.lt_floor_add_one r]
  have hup : ⌈r⌉.toNat < d.length :=
    lt_of_le_of_lt (ceil_toNat_le r (d.length - 1) hr) (by omega)
  have hAB : d.getD ⌊r⌋.toNat 0 ≤ d.getD ⌈r⌉.toNat 0 :=
    sorted_getD_mono d hs (Int.toNat_le_toNat (Int.floor_le_ceil r)) hup
  unfold interpAt
  nlinarith [mul_nonneg (by linarith : (0:ℝ) ≤ 1 - (r - (⌊r⌋.toNat : ℝ)))
    (sub_nonneg.mpr hAB)]

/-- Rank-interpolation is monotone in the rank over a sorted list. -/
theorem interpAt_mono (d : List ℝ) (hs : List.Sorted (· ≤ ·) d) (hd : d ≠ [])
    {r1 r2 : ℝ} (h01 : 0 ≤ r1) (h12 : r1 ≤ r2)
    (hr2 : r2 ≤ ((d.length - 1 : ℕ) : ℝ)) : interpAt d r1 ≤ interpAt d r2 := by
  have hpos : 0 < d.length := List.length_pos.mpr hd
  have h02 : 0 ≤ r2 := le_trans h01 h12
  have hr1 : r1 ≤ ((d.length - 1 : ℕ) : ℝ) := le_trans h12 hr2
  by_cases hff : ⌊r1⌋ = ⌊r2⌋
  · by_cases hint : r1 = ((⌊r1⌋ : ℤ) : ℝ)
    · have hval : interpAt d r1 = d.getD ⌊r1⌋.toNat 0 := by
        unfold interpAt
        have hz : r1 - (⌊r1⌋.toNat : ℝ) = 0 := by
          rw [floor_toNat_cast r1 h01, ← hint]
          ring
        rw [hz]
        ring
      rw [hval, hff]
      exact interpAt_ge_floor d hs r2 h02 hr2 hd
    · have hlt1 : ((⌊r1⌋ : ℤ) : ℝ) < r1 := lt_of_le_of_ne (Int.floor_le r1) (Ne.symm hint)
      have hc1 : ⌈r1⌉ = ⌊r1⌋ + 1 := by
        have hh : ⌊r1⌋ < ⌈r1⌉ := Int.lt_ceil.mpr hlt1
        have hh2 := Int.ceil_le_floor_add_one r1
        omega
      have hlt2 : ((⌊r2⌋ : ℤ) : ℝ) < r2 := by
        rw [← hff]
        linarith
      have hc2 : ⌈r2⌉ = ⌊r2⌋ + 1 := by
        have hh : ⌊r2⌋ < ⌈r2⌉ := Int.lt_ceil.mpr hlt2
        have hh2 := Int.ceil_le_floor_add_one r2
        omega
      have hupb : (⌊r2⌋ + 1).toNat < d.length := by
        have := ceil_toNat_le r2 (d.length - 1) hr2
        rw [hc2] at this
        omega
      have hAB : d.getD ⌊r2⌋.toNat 0 ≤ d.getD (⌊r2⌋ + 1).toNat 0 :=
        sorted_getD_mono d hs (Int.toNat_le_toNat (by omega)) hupb
      unfold interpAt
      rw [hc1, hc2, hff]
      nlinarith [hAB, h12]
  · have hlt : ⌊r1⌋ < ⌊r2⌋ := lt_of_le_of_ne (Int.floor_le_floor h12) hff
    have hb2 : ⌊r2⌋.toNat < d.length :=
      lt_of_le_of_lt (floor_toNat_le r2 (d.length - 1)
        (le_trans (Int.floor_le r2) hr2 |> fun _ => hr2)) (by omega)
    calc interpAt d r1 ≤ d.getD ⌈r1⌉.toNat 0 := interpAt_le_ceil d hs r1 h01 hr1 hd
      _ ≤ d.getD ⌊r2⌋.toNat 0 :=
          sorted_getD_mono d hs
            (Int.toNat_le_toNat (le_trans (Int.ceil_le_floor_add_one r1) (by omega))) hb2
      _ ≤ interpAt d r2 := interpAt_ge_floor d hs r2 h02 hr2 hd

/-- The stored data of a constructed `Stats` is the sorted input. -/
theorem Stats.new_data_eq (l : List ℝ) :
    (Stats.new l).data = List.insertionSort (· ≤ ·) l := rfl

/-- The stored count of a constructed `Stats` is the (sorted) length. -/
theorem Stats.new_n (l : List ℝ) :
    (Stats.new l).n = (List.insertionSort (· ≤ ·) l).length := rfl

open Classical in
/-- The stored geometric mean of a constructed `Stats`, unfolded. -/
theorem Stats.new_geo_mean (l : List ℝ) :
    (Stats.new l).geo_mean =
      if ∀ x ∈ List.insertionSort (· ≤ ·) l, 0 < x then
        F.exp (F.div (F.num (((List.insertionSort (· ≤ ·) l).map Real.log).sum))
          (F.num ((List.insertionSort (· ≤ ·) l).length : ℝ)))
      else F.nan := rfl

/-- Quantile on empty data is NaN. -/
theorem Stats.quantile_empty (s : Stats) (q : ℝ) (h : s.data = []) :
    s.quantile q = F.nan := by
  unfold Stats.quantile
  rw [if_pos h]

/-- Quantile at `q <= 0` is the first element of the sorted data. -/
theorem Stats.quantile_le_zero (s : Stats) (q : ℝ) (h : s.data ≠ []) (hq : q ≤ 0) :
    s.quantile q = F.num (s.data.getD 0 0) := by
  unfold Stats.quantile
  rw [if_neg h, if_pos hq]

/-- Quantile at `q >= 1` is the last element of the sorted data. -/
theorem Stats.quantile_ge_one (s : Stats) (q : ℝ) (h : s.data ≠ []) (hq0 : ¬q ≤ 0)
    (hq : 1 ≤ q) : s.quantile q = F.num (s.data.getD (s.n - 1) 0) := by
  unfold Stats.quantile
  rw [if_neg h, if_neg hq0, if_pos hq]

/-- Quantile in the open interval interpolates at rank `q * (n - 1)`. -/
theorem Stats.quantile_mid (s : Stats) (q : ℝ) (h : s.data ≠ []) (hq0 : 0 < q)
    (hq1 : q < 1) :
    s.quantile q = F.num (interpAt s.data (q * ((s.n - 1 : ℕ) : ℝ))) := by
  unfold Stats.quantile
  rw [if_neg h, if_neg (not_le.mpr hq0), if_neg (not_le.mpr hq1)]

/-- A nonempty input yields nonempty sorted data. -/
theorem Stats.new_data_ne (l : List ℝ) (hl : l ≠ []) : (Stats.new l).data ≠ [] := by
  rw [Stats.new_data_eq]
  intro h
  apply hl
  have hperm := List.perm_insertionSort (· ≤ ·) l
  rw [h] at hperm
  exact (List.nil_perm.mp hperm)

/-- C3: the quantile policy of `Stats::quantile` on a constructed summary:
NaN on empty data; for nonempty data, `q <= 0` gives the minimum sample,
`q >= 1` gives the maximum sample, and for `0 < q < 1` the result is
`sorted[lo] * (1 - frac) + sorted[hi] * frac` at `rank = q * (n - 1)`,
`lo = floor(rank)`, `hi = ceil(rank)`, `frac = rank - lo`. -/
theorem c3_quantile_policy (l : List ℝ) (q : ℝ) :
    (l = [] → (Stats.new l).quantile q = F.nan) ∧
      (l ≠ [] → q ≤ 0 → ∃ m, (Stats.new l).quantile q = F.num m ∧ m ∈ l ∧
        ∀ y ∈ l, m ≤ y) ∧
      (l ≠ [] → 1 ≤ q → ∃ M, (Stats.new l).quantile q = F.num M ∧ M ∈ l ∧
        ∀ y ∈ l, y ≤ M) ∧
      (l ≠ [] → 0 < q → q < 1 →
        (Stats.new l).quantile q =
          F.num ((Stats.new l).data.getD ⌊q * (((Stats.new l).n - 1 : ℕ) : ℝ)⌋.toNat 0 *
              (1 - (q * (((Stats.new l).n - 1 : ℕ) : ℝ) -
                (⌊q * (((Stats.new l).n - 1 : ℕ) : ℝ)⌋.toNat : ℝ))) +
            (Stats.new l).data.getD ⌈q * (((Stats.new l).n - 1 : ℕ) : ℝ)⌉.toNat 0 *
              (q * (((Stats.new l).n - 1 : ℕ) : ℝ) -
                (⌊q * (((Stats.new l).n - 1 : ℕ) : ℝ)⌋.toNat : ℝ)))) := by
  have hperm := List.perm_insertionSort (· ≤ ·) l
  have hsort := List.sorted_insertionSort (· ≤ ·) l
  refine ⟨?_, ?_, ?_, ?_⟩
  · intro hl
    subst hl
    exact Stats.quantile_empty _ q rfl
  · intro hl hq
    have hd := Stats.new_data_ne l hl
    have hpos : 0 < (Stats.new l).data.length := List.length_pos.mpr hd
    rw [Stats.quantile_le_zero _ q hd hq]
    refine ⟨(Stats.new l).data.getD 0 0, rfl, ?_, ?_⟩
    · rw [Stats.new_data_eq] at hpos ⊢
      exact hperm.mem_iff.mp (getD_mem _ hpos)
    · intro y hy
      rw [Stats.new_data_eq] at hpos ⊢
      obtain ⟨i, hi, rfl⟩ := mem_getD _ (hperm.mem_iff.mpr hy)
      exact sorted_getD_mono _ hsort (Nat.zero_le i) hi
  · intro hl hq
    have hd := Stats.new_data_ne l hl
    have hpos : 0 < (Stats.new l).data.length := List.length_pos.mpr hd
    rw [Stats.quantile_ge_one _ q hd (by linarith) hq]
    have hnn : (Stats.new l).n = (Stats.new l).data.length := rfl
    rw [hnn]
    refine ⟨(Stats.new l).data.getD ((Stats.new l).data.length - 1) 0, rfl, ?_, ?_⟩
    · rw [Stats.new_data_eq] at hpos ⊢
      exact hperm.mem_iff.mp (getD_mem _ (by omega))
    · intro y hy
      rw [Stats.new_data_eq] at hpos ⊢
      obtain ⟨i, hi, rfl⟩ := mem_getD _ (hperm.mem_iff.mpr hy)
      exact sorted_getD_mono _ hsort (by omega) (by omega)
  · intro hl hq0 hq1
    have hd := Stats.new_data_ne l hl
    rw [Stats.quantile_mid _ q hd hq0 hq1]
    rfl

/-- C3 (witness): on the data `[3, 1]` and `q = -1` the quantile is the
minimum sample. -/
theorem c3_quantile_policy_witness :
    ∃ m, (Stats.new [3, 1]).quantile (-1) = F.num m ∧ m ∈ ([3, 1] : List ℝ) ∧
      ∀ y ∈ ([3, 1] : List ℝ), m ≤ y :=
  (c3_quantile_policy [3, 1] (-1)).2.1 (by simp) (by norm_num)

/-- Sorting is a congruence for permutations: two permuted inputs sort to
the identical list. -/
theorem insertionSort_eq_of_perm (l l' : List ℝ) (h : l.Perm l') :
    List.insertionSort (· ≤ ·) l = List.insertionSort (· ≤ ·) l' :=
  List.eq_of_perm_of_sorted
    ((List.perm_insertionSort _ l).trans (h.trans (List.perm_insertionSort _ l').symm))
    (List.sorted_insertionSort _ l) (List.sorted_insertionSort _ l')

/-- C5: constructing `Stats` from any permutation of the sample vector
yields identical `n`, `sum`, `mean`, `variance`, and identical quantiles
for every `q`: all aggregates are computed from the sorted data. -/
theorem c5_order_independence (l l' : List ℝ) (h : l.Perm l') :
    (Stats.new l).n = (Stats.new l').n ∧ (Stats.new l).sum = (Stats.new l').sum ∧
      (Stats.new l).mean = (Stats.new l').mean ∧
      (Stats.new l).variance = (Stats.new l').variance ∧
      ∀ q : ℝ, (Stats.new l).quantile q = (Stats.new l').quantile q := by
  have hnew : Stats.new l = Stats.new l' := by
    unfold Stats.new
    rw [insertionSort_eq_of_perm l l' h]
  rw [hnew]
  exact ⟨rfl, rfl, rfl, rfl, fun _ => rfl⟩

/-- C5 (witness): instantiated at the concrete permutation `[0,1] ~ [1,0]`. -/
theorem c5_order_independence_witness :
    (Stats.new [0, 1]).n = (Stats.new [1, 0]).n ∧
      (Stats.new [0, 1]).sum = (Stats.new [1, 0]).sum ∧
      (Stats.new [0, 1]).mean = (Stats.new [1, 0]).mean ∧
      (Stats.new [0, 1]).variance = (Stats.new [1, 0]).variance ∧
      ∀ q : ℝ, (Stats.new [0, 1]).quantile q = (Stats.new [1, 0]).quantile q :=
  c5_order_independence [0, 1] [1, 0] (List.Perm.swap 1 0 [])

/-- C6 (counterexample): on the empty sample vector the geometric mean is
NaN (it is `exp(0.0 / 0.0)`), yet the vector contains no value `<= 0` —
the claimed equivalence fails on the empty vector. -/
theorem c6_geo_mean_empty_cex :
    (Stats.new ([] : List ℝ)).geo_mean = F.nan ∧
      ¬∃ x ∈ ([] : List ℝ), x ≤ 0 := by
  constructor
  · rw [Stats.new_geo_mean]
    have he : List.insertionSort (· ≤ ·) ([] : List ℝ) = [] := rfl
    rw [he, if_pos (by intro x hx; simp at hx)]
    simp only [List.map_nil, List.sum_nil, List.length_nil, Nat.cast_zero]
    rw [F.div_zero_zero]
    rfl
  · simp

/-- C6 (amended): on a NON-EMPTY sample vector, the geometric mean is NaN
iff some sample is `<= 0`, and when every sample is strictly positive it
equals `exp(sum(ln x) / n)`.  (On the empty vector it is NaN with no
non-positive sample present.) -/
theorem c6_geo_mean_characterization (l : List ℝ) (hne : l ≠ []) :
    ((Stats.new l).geo_mean = F.nan ↔ ∃ x ∈ l, x ≤ 0) ∧
      ((∀ x ∈ l, 0 < x) →
        (Stats.new l).geo_mean =
          F.num (Real.exp ((l.map Real.log).sum / (l.length : ℝ)))) := by
  have hperm := List.perm_insertionSort (· ≤ ·) l
  have hmem : ∀ x : ℝ, x ∈ List.insertionSort (· ≤ ·) l ↔ x ∈ l :=
    fun x => hperm.mem_iff
  have hlen : (List.insertionSort (· ≤ ·) l).length = l.length := hperm.length_eq
  have hlog : ((List.insertionSort (· ≤ ·) l).map Real.log).sum =
      (l.map Real.log).sum := (hperm.map Real.log).sum_eq
  have hlpos : 0 < l.length := List.length_pos.mpr hne
  have hform : (∀ x ∈ l, 0 < x) →
      (Stats.new l).geo_mean =
        F.num (Real.exp ((l.map Real.log).sum / (l.length : ℝ))) := by
    intro hp
    rw [Stats.new_geo_mean, if_pos (fun x hx => hp x ((hmem x).mp hx)), hlog, hlen,
      F.div_num_num _ _ (by exact_mod_cast hlpos.ne')]
    rfl
  refine ⟨?_, hform⟩
  by_cases hp : ∀ x ∈ l, 0 < x
  · rw [hform hp]
    constructor
    · intro hcontra
      exact absurd hcontra (fun hx => F.noConfusion hx)
    · rintro ⟨x, hx, hx0⟩
      exact absurd (hp x hx) (not_lt.mpr hx0)
  · rw [Stats.new_geo_mean, if_neg (fun hall => hp (fun x hx => hall x ((hmem x).mpr hx)))]
    constructor
    · intro _
      push_neg at hp
      obtain ⟨x, hx, h⟩ := hp
      exact ⟨x, hx, h⟩
    · intro _
      rfl

/-- C6 (witness): instantiated at the vector `[2]`. -/
theorem c6_geo_mean_characterization_witness :
    (((Stats.new [2]).geo_mean = F.nan) ↔ ∃ x ∈ ([2] : List ℝ), x ≤ 0) ∧
      ((∀ x ∈ ([2] : List ℝ), 0 < x) →
        (Stats.new [2]).geo_mean =
          F.num (Real.exp ((([2] : List ℝ).map Real.log).sum /
            (([2] : List ℝ).length : ℝ)))) :=
  c6_geo_mean_characterization [2] (by simp)

/-- C4: on a summary built from a non-empty (NaN-free) sample vector,
`quantile` is monotone non-decreasing in the query point: both results are
finite numbers and the first is at most the second. -/
theorem c4_quantile_monotone (l : List ℝ) (q1 q2 : ℝ) (hne : l ≠ [])
    (h12 : q1 ≤ q2) :
    ∃ a b, (Stats.new l).quantile q1 = F.num a ∧
      (Stats.new l).quantile q2 = F.num b ∧ a ≤ b := by
  have hd := Stats.new_data_ne l hne
  have hsort : List.Sorted (· ≤ ·) (Stats.new l).data := by
    rw [Stats.new_data_eq]
    exact List.sorted_insertionSort _ l
  set d := (Stats.new l).data with hd_def
  have hpos : 0 < d.length := List.length_pos.mpr hd
  have hnn : (Stats.new l).n = d.length := rfl
  have hn1 : (0:ℝ) ≤ ((d.length - 1 : ℕ) : ℝ) := Nat.cast_nonneg _
  by_cases hq2 : q2 ≤ 0
  · have hq1 : q1 ≤ 0 := le_trans h12 hq2
    rw [Stats.quantile_le_zero _ _ hd hq1, Stats.quantile_le_zero _ _ hd hq2]
    exact ⟨_, _, rfl, rfl, le_rfl⟩
  · push_neg at hq2
    by_cases hq1 : q1 ≤ 0
    · rw [Stats.quantile_le_zero _ _ hd hq1]
      by_cases hq2b : 1 ≤ q2
      · rw [Stats.quantile_ge_one _ _ hd (by linarith) hq2b, hnn]
        exact ⟨_, _, rfl, rfl, sorted_getD_mono d hsort (Nat.zero_le _) (by omega)⟩
      · push_neg at hq2b
        rw [Stats.quantile_mid _ _ hd hq2 hq2b, hnn]
        refine ⟨_, _, rfl, rfl, ?_⟩
        have h0r2 : 0 ≤ q2 * ((d.length - 1 : ℕ) : ℝ) := mul_nonneg (le_of_lt hq2) hn1
        have hr2 : q2 * ((d.length - 1 : ℕ) : ℝ) ≤ ((d.length - 1 : ℕ) : ℝ) := by
          nlinarith
        calc d.getD 0 0
            ≤ d.getD ⌊q2 * ((d.length - 1 : ℕ) : ℝ)⌋.toNat 0 :=
              sorted_getD_mono d hsort (Nat.zero_le _)
                (lt_of_le_of_lt (floor_toNat_le _ (d.length - 1) hr2) (by omega))
          _ ≤ interpAt d (q2 * ((d.length - 1 : ℕ) : ℝ)) :=
              interpAt_ge_floor d hsort _ h0r2 hr2 hd
    · push_neg at hq1
      by_cases hq1b : 1 ≤ q1
      · have hq2b : 1 ≤ q2 := le_trans hq1b h12
        rw [Stats.quantile_ge_one _ _ hd (by linarith) hq1b,
          Stats.quantile_ge_one _ _ hd (by linarith) hq2b]
        exact ⟨_, _, rfl, rfl, le_rfl⟩
      · push_neg at hq1b
        rw [Stats.quantile_mid _ _ hd hq1 hq1b, hnn]
        have h0r1 : 0 ≤ q1 * ((d.length - 1 : ℕ) : ℝ) := mul_nonneg (le_of_lt hq1) hn1
        have hr1 : q1 * ((d.length - 1 : ℕ) : ℝ) ≤ ((d.length - 1 : ℕ) : ℝ) := by
          nlinarith
        by_cases hq2b : 1 ≤ q2
        · rw [Stats.quantile_ge_one _ _ hd (by linarith) hq2b, hnn]
          refine ⟨_, _, rfl, rfl, ?_⟩
          calc interpAt d (q1 * ((d.length - 1 : ℕ) : ℝ))
              ≤ d.getD ⌈q1 * ((d.length - 1 : ℕ) : ℝ)⌉.toNat 0 :=
                interpAt_le_ceil d hsort _ h0r1 hr1 hd
            _ ≤ d.getD (d.length - 1) 0 :=
                sorted_getD_mono d hsort (ceil_toNat_le _ _ hr1) (by omega)
        · push_neg at hq2b
          rw [Stats.quantile_mid _ _ hd hq2 hq2b, hnn]
          refine ⟨_, _, rfl, rfl, ?_⟩
          have hr12 : q1 * ((d.length - 1 : ℕ) : ℝ) ≤ q2 * ((d.length - 1 : ℕ) : ℝ) :=
            mul_le_mul_of_nonneg_right h12 hn1
          have hr2 : q2 * ((d.length - 1 : ℕ) : ℝ) ≤ ((d.length - 1 : ℕ) : ℝ) := by
            nlinarith
          exact interpAt_mono d hsort hd h0r1 hr12 hr2

/-- C4 (witness): instantiated on the data `[1, 2]` at `q1 = 1/4 <= q2 = 3/4`. -/
theorem c4_quantile_monotone_witness :
    ∃ a b, (Stats.new [1, 2]).quantile (1/4) = F.num a ∧
      (Stats.new [1, 2]).quantile (3/4) = F.num b ∧ a ≤ b :=
  c4_quantile_monotone [1, 2] (1/4) (3/4) (by simp) (by norm_num)

/-- The constructed KDE stores the given data unchanged. -/
theorem KDE.new_data_kept (l : List ℝ) : (KDE.new l).data = l := rfl

/-- In a sorted list the head is a lower bound. -/
theorem sorted_head_le (l : List ℝ) (hs : List.Sorted (· ≤ ·) l) (hl : l ≠ []) :
    ∀ y ∈ l, l.head hl ≤ y := by
  cases l with
  | nil => exact absurd rfl hl
  | cons a t =>
    intro y hy
    rcases List.mem_cons.mp hy with rfl | hyt
    · exact le_rfl
    · exact (List.sorted_cons.mp hs).1 y hyt

/-- Defaulted indexing agrees with checked indexing in range. -/
theorem getD_eq_getElem (d : List ℝ) {i : ℕ} (hi : i < d.length) :
    d.getD i 0 = d[i] := by
  rw [List.getD_eq_getElem?_getD, List.getElem?_eq_getElem hi, Option.getD_some]

/-- In a sorted list the last element is an upper bound. -/
theorem sorted_le_getLast (l : List ℝ) (hs : List.Sorted (· ≤ ·) l) (hl : l ≠ []) :
    ∀ y ∈ l, y ≤ l.getLast hl := by
  intro y hy
  have hpos : 0 < l.length := List.length_pos.mpr hl
  obtain ⟨i, hi, rfl⟩ := mem_getD l hy
  rw [List.getLast_eq_getElem, ← getD_eq_getElem l (by omega)]
  exact sorted_getD_mono l hs (by omega) (by omega)

/-- C7 (counterexample): on the empty sample sequence `bounds()` returns
`(0.0, 1.1)` — the padding is computed from the fallback values `0.0` and
`1.0` — not the claimed `(0.0, 1.0)`. -/
theorem c7_bounds_empty_cex :
    (KDE.new []).bounds = ((0 : ℝ), (1.1 : ℝ)) ∧
      (KDE.new []).bounds ≠ ((0 : ℝ), (1 : ℝ)) := by
  have h : (KDE.new ([] : List ℝ)).bounds = ((0 : ℝ), (1.1 : ℝ)) := by
    unfold KDE.bounds
    rw [KDE.new_data_kept]
    norm_num
  refine ⟨h, ?_⟩
  rw [h]
  intro hc
  rw [Prod.mk.injEq] at hc
  norm_num at hc

/-- C7 (amended): on a non-empty sorted sequence, `bounds()` is
`(min - pad, max + pad)` with `pad = 0.1 * (max - min)` and the lower bound
clamped to zero when the minimum is non-negative; on the EMPTY sequence it
returns `(0.0, 1.1)` (the 10% padding applied to the fallback range
`(0.0, 1.0)`), not `(0.0, 1.0)`. -/
theorem c7_bounds_characterization (l : List ℝ) (hs : List.Sorted (· ≤ ·) l) :
    (l = [] → (KDE.new l).bounds = ((0 : ℝ), (1.1 : ℝ))) ∧
      (l ≠ [] → ∃ mn mx, mn ∈ l ∧ mx ∈ l ∧ (∀ y ∈ l, mn ≤ y ∧ y ≤ mx) ∧
        (KDE.new l).bounds =
          ((if 0 ≤ mn then max (mn - (mx - mn) * 0.1) 0 else mn - (mx - mn) * 0.1),
            mx + (mx - mn) * 0.1)) := by
  constructor
  · intro hl
    subst hl
    unfold KDE.bounds
    rw [KDE.new_data_kept]
    norm_num
  · intro hl
    refine ⟨l.head hl, l.getLast hl, List.head_mem hl, List.getLast_mem hl, ?_, ?_⟩
    · intro y hy
      exact ⟨sorted_head_le l hs hl y hy, sorted_le_getLast l hs hl y hy⟩
    · unfold KDE.bounds
      rw [KDE.new_data_kept, List.head?_eq_head hl, List.getLast?_eq_getLast l hl]
      rfl

/-- C7 (witness): instantiated at the sorted sequence `[1, 2]`. -/
theorem c7_bounds_characterization_witness :
    (([1, 2] : List ℝ) = [] → (KDE.new [1, 2]).bounds = ((0 : ℝ), (1.1 : ℝ))) ∧
      (([1, 2] : List ℝ) ≠ [] → ∃ mn mx, mn ∈ ([1, 2] : List ℝ) ∧
        mx ∈ ([1, 2] : List ℝ) ∧ (∀ y ∈ ([1, 2] : List ℝ), mn ≤ y ∧ y ≤ mx) ∧
        (KDE.new [1, 2]).bounds =
          ((if 0 ≤ mn then max (mn - (mx - mn) * 0.1) 0 else mn - (mx - mn) * 0.1),
            mx + (mx - mn) * 0.1)) :=
  c7_bounds_characterization [1, 2] (by norm_num [List.sorted_cons])

/-- Summing a list of finite values is the finite sum. -/
theorem F.listSum_map_num (f : ℝ → ℝ) (l : List ℝ) :
    F.listSum (l.map (fun x => F.num (f x))) = F.num ((l.map f).sum) := by
  unfold F.listSum
  suffices h : ∀ acc : ℝ,
      (l.map (fun x => F.num (f x))).foldl F.add (F.num acc) =
        F.num (acc + (l.map f).sum) by
    have := h 0
    rwa [zero_add] at this
  induction l with
  | nil => intro acc; simp
  | cons a t ih =>
    intro acc
    simp only [List.map_cons, List.foldl_cons, List.sum_cons]
    have h1 : F.add (F.num acc) (F.num (f a)) = F.num (acc + f a) := rfl
    rw [h1, ih (acc + f a), add_assoc]

/-- The Silverman bandwidth of a non-empty slice, as a finite number. -/
theorem KDE.bandwidth_eq (l : List ℝ) (hl : l ≠ []) :
    (KDE.new l).bandwidth =
      F.num (1.06 * Real.sqrt ((l.map (fun x =>
          (x - l.sum / (l.length : ℝ)) * (x - l.sum / (l.length : ℝ)))).sum /
          (l.length : ℝ)) *
        ((l.length : ℝ) ^ (-0.2 : ℝ))) := by
  have hn0 : ((l.length : ℝ)) ≠ 0 := Nat.cast_ne_zero.mpr (List.length_pos.mpr hl).ne'
  have hnpos : (0:ℝ) < (l.length : ℝ) := by exact_mod_cast List.length_pos.mpr hl
  show F.mul (F.mul (F.num 1.06) (F.sqrt (F.div (F.listSum (l.map (fun x =>
      F.mul (F.sub (F.num x) (F.div (F.num l.sum) (F.num (l.length : ℝ))))
        (F.sub (F.num x) (F.div (F.num l.sum) (F.num (l.length : ℝ)))))))
      (F.num (l.length : ℝ))))) (F.powf (F.num (l.length : ℝ)) (-0.2)) = _
  rw [F.div_num_num _ _ hn0]
  simp only [F.sub, F.mul]
  rw [F.listSum_map_num
    (fun x => (x - l.sum / (l.length : ℝ)) * (x - l.sum / (l.length : ℝ))) l]
  rw [F.div_num_num _ _ hn0]
  have hv0 : ¬((l.map (fun x =>
      (x - l.sum / (l.length : ℝ)) * (x - l.sum / (l.length : ℝ)))).sum /
      (l.length : ℝ) < 0) := by
    push_neg
    apply div_nonneg _ (le_of_lt hnpos)
    apply List.sum_nonneg
    intro y hy
    obtain ⟨a, _, rfl⟩ := List.mem_map.mp hy
    exact mul_self_nonneg _
  simp only [F.sqrt]
  rw [if_neg hv0]
  simp only [F.powf]
  rw [if_neg hn0, if_pos hnpos]

/-- Unfolded form of `pdf` when the bandwidth is the finite value `b`. -/
theorem KDE.pdf_num (k : KDE) (x b : ℝ) (hb : k.bandwidth = F.num b) :
    k.pdf x = F.div
      (F.listSum (((k.data.take
          (partitionPoint (fun xi => F.le (F.num xi) (F.num (x + 4 * b))) k.data)).drop
          (partitionPoint (fun xi => F.lt (F.num xi) (F.num (x - 4 * b))) k.data)).map
        (fun xi => gaussian_kernel (F.div (F.num (x - xi)) (F.num b)))))
      (F.num ((k.data.length : ℝ) * b)) := by
  unfold KDE.pdf
  rw [hb]
  simp only [F.mul, F.sub, F.add]

/-- `partition_point` unfolded to a satisfied-element count. -/
theorem partitionPoint_def (p : ℝ → Prop) (l : List ℝ) :
    partitionPoint p l = l.countP (fun x => @decide (p x) (Classical.propDecidable _)) := rfl

/-- A count is bounded by any cut whose suffix contains no satisfying
element. -/
theorem countP_le_of_drop_false (d : List ℝ) (p : ℝ → Bool) (k : ℕ)
    (hk : k ≤ d.length) (h : ∀ y ∈ d.drop k, p y = false) : d.countP p ≤ k := by
  conv_lhs => rw [← List.take_append_drop k d]
  rw [List.countP_append]
  have h2 : (d.drop k).countP p = 0 :=
    List.countP_eq_zero.mpr (fun y hy => by simp [h y hy])
  rw [h2, Nat.add_zero]
  refine le_trans (List.countP_le_length p) ?_
  rw [List.length_take]
  omega

/-- A count is at least any cut all of whose elements satisfy the
predicate. -/
theorem le_countP_of_take_true (d : List ℝ) (p : ℝ → Bool) (k : ℕ)
    (hk : k ≤ d.length) (h : ∀ y ∈ d.take k, p y = true) : k ≤ d.countP p := by
  conv_rhs => rw [← List.take_append_drop k d]
  rw [List.countP_append]
  have h2 : (d.take k).countP p = (d.take k).length := List.countP_eq_length.mpr h
  rw [h2, List.length_take]
  omega

/-- In a sorted list every element of the suffix from `k` is at least the
`k`-th element. -/
theorem sorted_drop_ge (d : List ℝ) (hs : List.Sorted (· ≤ ·) d) (k : ℕ)
    (hk : k < d.length) : ∀ y ∈ d.drop k, d.getD k 0 ≤ y := by
  intro y hy
  obtain ⟨j, hj, rfl⟩ := List.mem_iff_getElem.mp hy
  rw [List.getElem_drop]
  have hj' : k + j < d.length := by
    rw [List.length_drop] at hj
    omega
  rw [← getD_eq_getElem d hj']
  exact sorted_getD_mono d hs (Nat.le_add_right k j) hj'

/-- In a sorted list every element of the first `k + 1` entries is at most
the `k`-th element. -/
theorem sorted_take_le (d : List ℝ) (hs : List.Sorted (· ≤ ·) d) (k : ℕ)
    (hk : k < d.length) : ∀ y ∈ d.take (k + 1), y ≤ d.getD k 0 := by
  intro y hy
  obtain ⟨j, hj, rfl⟩ := List.mem_iff_getElem.mp hy
  have hj' : j < k + 1 := by
    rw [List.length_take] at hj
    omega
  rw [List.getElem_take]
  have hjd : j < d.length := by omega
  rw [← getD_eq_getElem d hjd]
  exact sorted_getD_mono d hs (by omega) hk

/-- Folding addition of strictly positive finite values from a finite
accumulator strictly increases it. -/
theorem F.listSum_pos_aux (L : List F) :
    ∀ acc : ℝ, (∀ y ∈ L, ∃ v, y = F.num v ∧ 0 < v) →
      ∃ s, L.foldl F.add (F.num acc) = F.num s ∧ acc ≤ s ∧ (L ≠ [] → acc < s) := by
  induction L with
  | nil => exact fun acc _ => ⟨acc, rfl, le_rfl, fun h => absurd rfl h⟩
  | cons y t ih =>
    intro acc hall
    obtain ⟨v, rfl, hv⟩ := hall y (List.mem_cons_self _ _)
    have h1 : F.add (F.num acc) (F.num v) = F.num (acc + v) := rfl
    simp only [List.foldl_cons, h1]
    obtain ⟨s, hs, hle, _⟩ := ih (acc + v) (fun z hz => hall z (List.mem_cons_of_mem _ hz))
    exact ⟨s, hs, by linarith, fun _ => by linarith⟩

/-- A non-empty sum of strictly positive finite values is a strictly
positive finite value. -/
theorem F.listSum_pos (L : List F) (hL : L ≠ [])
    (h : ∀ y ∈ L, ∃ v, y = F.num v ∧ 0 < v) :
    ∃ s, F.listSum L = F.num s ∧ 0 < s := by
  obtain ⟨s, hs, _, hlt⟩ := F.listSum_pos_aux L 0 h
  exact ⟨s, hs, hlt hL⟩

/-- The kernel at a finite argument, as a finite value. -/
theorem gaussian_kernel_num (u : ℝ) :
    gaussian_kernel (F.num u) =
      F.num (0.3989422804014327 * Real.exp (-0.5 * u * u)) := rfl

/-- Folding addition from a NaN accumulator stays NaN. -/
theorem F.foldl_add_nan (L : List F) : L.foldl F.add F.nan = F.nan := by
  induction L with
  | nil => rfl
  | cons y t ih =>
    simp only [List.foldl_cons]
    rw [show F.add F.nan y = F.nan from by cases y <;> rfl]
    exact ih

/-- On a slice of `n >= 1` identical samples the Silverman bandwidth is
exactly zero and `pdf` is NaN at every query point: at the common value the
kernel sees `0/0`, elsewhere the restriction window is empty and the final
division is `0/0`. -/
theorem kde_replicate_degenerate (n : ℕ) (c x : ℝ) (hn : 1 ≤ n) :
    (KDE.new (List.replicate n c)).bandwidth = F.num 0 ∧
      (KDE.new (List.replicate n c)).pdf x = F.nan := by
  have hl : List.replicate n c ≠ [] := by
    intro h
    have := congrArg List.length h
    simp at this
    omega
  have hn0 : ((n : ℝ)) ≠ 0 := Nat.cast_ne_zero.mpr (by omega)
  have hμ : (List.replicate n c).sum / ((List.replicate n c).length : ℝ) = c := by
    rw [List.sum_replicate, List.length_replicate, nsmul_eq_mul,
      mul_div_cancel_left₀ _ hn0]
  have hb : (KDE.new (List.replicate n c)).bandwidth = F.num 0 := by
    rw [KDE.bandwidth_eq _ hl, hμ, List.map_replicate]
    simp [List.sum_replicate, sub_self]
  refine ⟨hb, ?_⟩
  rw [KDE.pdf_num _ x 0 hb, KDE.new_data_kept]
  rcases lt_trichotomy x c with hxc | hxc | hxc
  · have hstart : partitionPoint (fun xi => F.lt (F.num xi) (F.num (x - 4 * 0)))
        (List.replicate n c) = 0 := by
      rw [partitionPoint_def, List.countP_replicate,
        if_neg (by simp [F.lt]; linarith)]
    have hstop : partitionPoint (fun xi => F.le (F.num xi) (F.num (x + 4 * 0)))
        (List.replicate n c) = 0 := by
      rw [partitionPoint_def, List.countP_replicate,
        if_neg (by simp [F.le]; linarith)]
    rw [hstart, hstop]
    simp only [List.take_zero, List.drop_nil, List.drop_zero, List.map_nil,
      F.listSum, List.foldl_nil]
    simp [F.div]
  · subst hxc
    have hstart : partitionPoint (fun xi => F.lt (F.num xi) (F.num (x - 4 * 0)))
        (List.replicate n x) = 0 := by
      rw [partitionPoint_def, List.countP_replicate, if_neg (by simp [F.lt])]
    have hstop : partitionPoint (fun xi => F.le (F.num xi) (F.num (x + 4 * 0)))
        (List.replicate n x) = n := by
      rw [partitionPoint_def, List.countP_replicate, if_pos (by simp [F.le])]
    rw [hstart, hstop, List.drop_zero, List.take_replicate, min_self,
      List.map_replicate]
    have hker : gaussian_kernel (F.div (F.num (x - x)) (F.num 0)) = F.nan := by
      rw [sub_self, F.div_zero_zero]
      rfl
    rw [hker]
    have hsum : F.listSum (List.replicate n F.nan) = F.nan := by
      unfold F.listSum
      obtain ⟨m, rfl⟩ : ∃ m, n = m + 1 := ⟨n - 1, by omega⟩
      rw [List.replicate_succ, List.foldl_cons,
        show F.add (F.num 0) F.nan = F.nan from rfl, F.foldl_add_nan]
    rw [hsum]
    rfl
  · have hstart : partitionPoint (fun xi => F.lt (F.num xi) (F.num (x - 4 * 0)))
        (List.replicate n c) = n := by
      rw [partitionPoint_def, List.countP_replicate,
        if_pos (by simp [F.lt]; linarith)]
    have hstop : partitionPoint (fun xi => F.le (F.num xi) (F.num (x + 4 * 0)))
        (List.replicate n c) = n := by
      rw [partitionPoint_def, List.countP_replicate,
        if_pos (by simp [F.le]; linarith)]
    rw [hstart, hstop, List.take_replicate, min_self, List.drop_replicate]
    simp only [Nat.sub_self, List.replicate_zero, List.map_nil, F.listSum,
      List.foldl_nil]
    simp [F.div]

/-- C10: when all `n >= 1` samples are the identical value `c`, `KDE::new`
computes bandwidth exactly `0.0`, and `pdf(x)` returns NaN for every query
point `x` (including the common sample value), without panicking; this
covers the single-sample case `n = 1`. -/
theorem c10_identical_samples (n : ℕ) (c x : ℝ) (hn : 1 ≤ n) :
    (KDE.new (List.replicate n c)).bandwidth = F.num 0 ∧
      (KDE.new (List.replicate n c)).pdf x = F.nan :=
  kde_replicate_degenerate n c x hn

/-- C10 (witness): instantiated at a single sample `0` queried at `0`. -/
theorem c10_identical_samples_witness :
    (KDE.new (List.replicate 1 (0:ℝ))).bandwidth = F.num 0 ∧
      (KDE.new (List.replicate 1 (0:ℝ))).pdf 0 = F.nan :=
  c10_identical_samples 1 0 0 (by decide)

/-- C8 (counterexample): for the non-empty sorted sequence `[1]` (all
samples identical, so the bandwidth is zero) the pdf at the data point `1`
is NaN, not strictly positive. -/
theorem c8_pdf_single_sample_cex :
    (KDE.new [1]).pdf 1 = F.nan ∧ (1:ℝ) ∈ ([1] : List ℝ) ∧
      ¬∃ v, (KDE.new [1]).pdf 1 = F.num v ∧ 0 < v := by
  have hpdf : (KDE.new [1]).pdf 1 = F.nan := by
    have h := kde_replicate_degenerate 1 1 1 (by decide)
    simpa using h.2
  exact ⟨hpdf, by simp, by rw [hpdf]; rintro ⟨v, hv, -⟩; exact F.noConfusion hv⟩

/-- C8 (amended): for every non-empty SORTED sample sequence that contains
at least two distinct values (so the Silverman bandwidth is strictly
positive), the estimator's pdf is a strictly positive finite number at
every data point.  (When all samples coincide the bandwidth degenerates to
zero and the pdf is NaN instead.) -/
theorem c8_pdf_positive_at_samples (l : List ℝ) (x : ℝ)
    (hs : List.Sorted (· ≤ ·) l) (hx : x ∈ l)
    (hdistinct : ∃ a ∈ l, ∃ b ∈ l, a ≠ b) :
    ∃ v, (KDE.new l).pdf x = F.num v ∧ 0 < v := by
  have hl : l ≠ [] := by
    rintro rfl
    simp at hx
  have hlpos : 0 < l.length := List.length_pos.mpr hl
  have hnpos : (0:ℝ) < (l.length : ℝ) := by exact_mod_cast hlpos
  have hsum_pos : 0 < (l.map (fun t =>
      (t - l.sum / (l.length : ℝ)) * (t - l.sum / (l.length : ℝ)))).sum := by
    obtain ⟨a, ha, b, hb, hab⟩ := hdistinct
    have hterm : ∀ y ∈ l.map (fun t =>
        (t - l.sum / (l.length : ℝ)) * (t - l.sum / (l.length : ℝ))), 0 ≤ y := by
      intro y hy
      obtain ⟨t, _, rfl⟩ := List.mem_map.mp hy
      exact mul_self_nonneg _
    have key : ∀ t ∈ l, t ≠ l.sum / (l.length : ℝ) →
        0 < (l.map (fun t =>
          (t - l.sum / (l.length : ℝ)) * (t - l.sum / (l.length : ℝ)))).sum := by
      intro t ht htne
      have hmem : (t - l.sum / (l.length : ℝ)) * (t - l.sum / (l.length : ℝ)) ∈
          l.map (fun t =>
            (t - l.sum / (l.length : ℝ)) * (t - l.sum / (l.length : ℝ))) :=
        List.mem_map.mpr ⟨t, ht, rfl⟩
      have hpos : 0 < (t - l.sum / (l.length : ℝ)) * (t - l.sum / (l.length : ℝ)) :=
        mul_self_pos.mpr (sub_ne_zero.mpr htne)
      exact lt_of_lt_of_le hpos (List.single_le_sum hterm _ hmem)
    rcases ne_or_eq a (l.sum / (l.length : ℝ)) with hne | heq
    · exact key a ha hne
    · exact key b hb (by rw [← heq]; exact hab.symm)
  have hbwpos : 0 < 1.06 * Real.sqrt ((l.map (fun t =>
      (t - l.sum / (l.length : ℝ)) * (t - l.sum / (l.length : ℝ)))).sum /
      (l.length : ℝ)) * ((l.length : ℝ) ^ (-0.2 : ℝ)) := by
    apply mul_pos (mul_pos (by norm_num) _) (Real.rpow_pos_of_pos hnpos _)
    exact Real.sqrt_pos.mpr (div_pos hsum_pos hnpos)
  have hb := KDE.bandwidth_eq l hl
  rw [KDE.pdf_num _ x _ hb, KDE.new_data_kept]
  set bw : ℝ := 1.06 * Real.sqrt ((l.map (fun t =>
      (t - l.sum / (l.length : ℝ)) * (t - l.sum / (l.length : ℝ)))).sum /
      (l.length : ℝ)) * ((l.length : ℝ) ^ (-0.2 : ℝ)) with hbwdef
  obtain ⟨kx, hkx, hkxval⟩ := mem_getD l hx
  have hstart : partitionPoint (fun xi => F.lt (F.num xi) (F.num (x - 4 * bw))) l ≤ kx := by
    rw [partitionPoint_def]
    apply countP_le_of_drop_false l _ kx (le_of_lt hkx)
    intro y hy
    have hxy : x ≤ y := hkxval ▸ sorted_drop_ge l hs kx hkx y hy
    rw [decide_eq_false_iff_not]
    simp only [F.lt]
    intro hc
    nlinarith
  have hstop : kx + 1 ≤
      partitionPoint (fun xi => F.le (F.num xi) (F.num (x + 4 * bw))) l := by
    rw [partitionPoint_def]
    apply le_countP_of_take_true l _ (kx + 1) (by omega)
    intro y hy
    have hxy : y ≤ x := hkxval ▸ sorted_take_le l hs kx hkx y hy
    exact @decide_eq_true _ (Classical.propDecidable _) (by simp only [F.le]; nlinarith)
  set START := partitionPoint (fun xi => F.lt (F.num xi) (F.num (x - 4 * bw))) l
    with hSTART
  set STOP := partitionPoint (fun xi => F.le (F.num xi) (F.num (x + 4 * bw))) l
    with hSTOP
  have hslice_ne : ((l.take STOP).drop START) ≠ [] := by
    intro hc
    have hlen := congrArg List.length hc
    rw [List.length_drop, List.length_take, List.length_nil] at hlen
    omega
  have hentries : ∀ y ∈ ((l.take STOP).drop START).map
      (fun xi => gaussian_kernel (F.div (F.num (x - xi)) (F.num bw))),
      ∃ v, y = F.num v ∧ 0 < v := by
    intro y hy
    obtain ⟨xi, _, rfl⟩ := List.mem_map.mp hy
    rw [F.div_num_num _ _ (ne_of_gt hbwpos), gaussian_kernel_num]
    refine ⟨_, rfl, ?_⟩
    positivity
  obtain ⟨s, hsum, hspos⟩ := F.listSum_pos _ (by simpa using hslice_ne) hentries
  rw [hsum, F.div_num_num _ _ (ne_of_gt (mul_pos hnpos hbwpos))]
  exact ⟨_, rfl, div_pos hspos (mul_pos hnpos hbwpos)⟩

/-- C8 (witness): instantiated at the sorted data `[0, 1]` and its data
point `0`. -/
theorem c8_pdf_positive_at_samples_witness :
    ∃ v, (KDE.new [0, 1]).pdf 0 = F.num v ∧ 0 < v :=
  c8_pdf_positive_at_samples [0, 1] 0 (by norm_num [List.sorted_cons])
    (by norm_num) ⟨0, by norm_num, 1, by norm_num, by norm_num⟩

